import Mathlib

/-!
Verification of the kubeseal-auto repository against its specification.

The development shallowly embeds the parts of the program that the claims
touch:

* `src/kubeseal_auto/secrets/parsing.py` — YAML secret-file parsing
  (`parse_secret_file`) and the ArgoCD sync-options merger
  (`append_argo_annotation`).
* `src/kubeseal_auto/secrets/sealing.py` — SealedSecret discovery
  (`_find_sealed_secrets`) and the batch re-encryptor (`reencrypt_secrets`).
* `src/kubeseal_auto/secrets/creation.py` — docker-registry secret creation
  (`create_regcred_secret`).
* `src/kubeseal_auto/cli.py` together with the `Kubeseal` facade of
  `src/kubeseal_auto/core/kubeseal.py` — CLI flag dispatch.
* `src/kubeseal_auto/host.py` — `normalize_version`.
* `src/kubeseal_auto/cluster.py` —
  `find_latest_sealed_secrets_controller_certificate`.

Python text values are modelled as `String`; character-level operations
(`str.split`, `str.strip`, regular-expression matching, substring tests) are
modelled as executable functions over `List Char` (`String.data`).  The YAML
loader (`yaml.safe_load_all`) and dumper (`yaml.safe_dump`) are external
libraries: a file carries, next to its raw bytes, the document stream the
loader produces from those bytes, and the dumper is modelled by a concrete
deterministic encoder.  The filesystem is a map from path to optional file,
and the external `kubeseal` subprocess is an oracle parameter mapping each
input file to an exit code and produced output.
-/

namespace KubesealAuto

/-! ### Character-level models of Python string primitives -/

/-- Python `str.split(",")` on the character list of a string: splits at every
comma, keeping empty pieces (`"".split(",") == [""]`). -/
def splitComma : List Char → List (List Char)
  | [] => [[]]
  | c :: rest =>
    match splitComma rest with
    | [] => [[]]
    | piece :: pieces =>
      if c = ',' then [] :: piece :: pieces else (c :: piece) :: pieces

/-- Python `",".join(pieces)` on character lists. -/
def joinComma : List (List Char) → List Char
  | [] => []
  | [x] => x
  | x :: y :: ys => x ++ ',' :: joinComma (y :: ys)

/-- The whitespace characters removed by Python `str.strip()` (ASCII part). -/
def pySpace (c : Char) : Bool :=
  c = ' ' || c = '\t' || c = '\n' || c = '\r' || c = '\x0b' || c = '\x0c'

/-- Python `str.strip()`: drop leading and trailing whitespace. -/
def stripChars (l : List Char) : List Char :=
  ((l.dropWhile pySpace).reverse.dropWhile pySpace).reverse

/-- Python `small.startswith(big)` test, modelled on character lists. -/
def isPrefOf : List Char → List Char → Bool
  | [], _ => true
  | _ :: _, [] => false
  | a :: as, b :: bs => a = b && isPrefOf as bs

/-- Python `needle in hay` substring containment on character lists. -/
def containsSubL (needle hay : List Char) : Bool :=
  match hay with
  | [] => needle.isEmpty
  | _ :: t => isPrefOf needle hay || containsSubL needle t

/-- Python `needle in hay` on strings. -/
def containsSub (needle hay : String) : Bool :=
  containsSubL needle.data hay.data

/-- Python `s.endswith(t)` on strings. -/
def strEndsWith (s t : String) : Bool :=
  isPrefOf t.data.reverse s.data.reverse

/-! ### YAML documents and files

`Yaml` models the values returned by `yaml.safe_load`: `None`, strings and
other scalars, sequences, and mappings (Python `dict`s with insertion order,
keyed by strings as Kubernetes manifests are). -/

/-- A YAML value as loaded by `yaml.safe_load`. -/
inductive Yaml where
  | null : Yaml
  | str (s : String) : Yaml
  | seq (items : List Yaml) : Yaml
  | map (entries : List (String × Yaml)) : Yaml
deriving Inhabited

/-- Whether the value is YAML `null` (a Python `None` document). -/
def Yaml.isNull : Yaml → Bool
  | .null => true
  | _ => false

/-- Whether the value is a YAML mapping (a Python `dict`). -/
def Yaml.isMap : Yaml → Bool
  | .map _ => true
  | _ => false

/-- Python `d[k]` / `d.get(k)` lookup on an ordered mapping: first matching
key (Python dicts cannot repeat keys, so first = only). -/
def lookupKey (m : List (String × Yaml)) (k : String) : Option Yaml :=
  match m with
  | [] => none
  | (k0, v) :: rest => if k0 = k then some v else lookupKey rest k

/-- Python `d[k] = v` on an ordered mapping: an existing key keeps its
position, a new key is appended at the end — exactly Python dict update. -/
def setKey (m : List (String × Yaml)) (k : String) (v : Yaml) :
    List (String × Yaml) :=
  match m with
  | [] => [(k, v)]
  | (k0, v0) :: rest =>
    if k0 = k then (k, v) :: rest else (k0, v0) :: setKey rest k v

/-- What `yaml.safe_load_all` produces from the bytes of a file: either a parse
failure (`yaml.YAMLError`) or the stream of documents. -/
inductive LoadResult where
  | malformed : LoadResult
  | docs (ds : List Yaml) : LoadResult

/-- An on-disk file: its raw bytes and how the YAML loader reads them. -/
structure File where
  bytes : String
  load : LoadResult

/-- The non-null documents of a file, or `none` if the YAML is malformed. -/
def nonNullDocs (f : File) : Option (List Yaml) :=
  match f.load with
  | .malformed => none
  | .docs ds => some (ds.filter (fun d => !d.isNull))

mutual

/-- A deterministic model of `yaml.safe_dump`: the concrete byte encoding
is irrelevant to every claim, only that re-serialisation writes definite
bytes. -/
def dumpYaml : Yaml → String
  | .null => "null"
  | .str s => "=" ++ s
  | .seq items => "[" ++ dumpYamlSeq items ++ "]"
  | .map entries => "<" ++ dumpYamlMap entries ++ ">"

/-- Serialise a YAML sequence body. -/
def dumpYamlSeq : List Yaml → String
  | [] => ""
  | x :: ys => dumpYaml x ++ "," ++ dumpYamlSeq ys

/-- Serialise a YAML mapping body. -/
def dumpYamlMap : List (String × Yaml) → String
  | [] => ""
  | (k, v) :: es => k ++ ":" ++ dumpYaml v ++ "," ++ dumpYamlMap es

end
/-! ### `secrets/parsing.py`: `parse_secret_file` -/

/-- The `SecretParsingError` cases raised by `parse_secret_file`
(`secrets/parsing.py`); each carries the offending path, as the Python
messages interpolate it. -/
inductive SecretParsingError where
  | multipleDocuments (path : String) : SecretParsingError
  | notAMapping (path : String) : SecretParsingError
  | doesNotExist (path : String) : SecretParsingError
  | malformedYaml (path : String) : SecretParsingError
deriving DecidableEq

/-- Model of `parse_secret_file(secret_path)` from `secrets/parsing.py`.  The file
argument is the state of the path on disk (`none` = `FileNotFoundError`).
Mirrors the source: load all documents, drop `None` documents, error on more
than one survivor, return `none` on zero, error if the survivor is not a
mapping, and wrap missing-file and malformed-YAML failures. -/
def parse_secret_file (path : String) (f? : Option File) :
    Except SecretParsingError (Option (List (String × Yaml))) :=
  match f? with
  | none => .error (.doesNotExist path)
  | some f =>
    match f.load with
    | .malformed => .error (.malformedYaml path)
    | .docs ds =>
      let docs := ds.filter (fun d => !d.isNull)
      if docs.length > 1 then .error (.multipleDocuments path)
      else
        match docs with
        | [] => .ok none
        | d :: _ =>
          match d with
          | .map m => .ok (some m)
          | _ => .error (.notAMapping path)

/-! ### `secrets/parsing.py`: `append_argo_annotation`

The sync-options merger.  The pure comma-list merge is modelled on
`List Char` (`split` / `strip` / `startswith` / `join` being Python string
methods), the document update on `Yaml` mappings, and the file-level
operation returns `none` when nothing is written. -/

/-- The key `"argocd.argoproj.io/sync-options"`. -/
def syncKey : String := "argocd.argoproj.io/sync-options"

/-- The literal `"SkipDryRunOnMissingResource=true"` as characters. -/
def skipOptionL : List Char := "SkipDryRunOnMissingResource=true".data

/-- The literal `"SkipDryRunOnMissingResource="` as characters. -/
def skipKeyL : List Char := "SkipDryRunOnMissingResource=".data

/-- The trimmed, non-empty comma-separated tokens of an options value:
`[opt.strip() for opt in s.split(",") if opt.strip()]`. -/
def optionTokens (l : List Char) : List (List Char) :=
  ((splitComma l).map stripChars).filter (fun t => !t.isEmpty)

/-- The merged sync-options value on characters: drop pre-existing
`SkipDryRunOnMissingResource=` options, prepend the desired option, re-join
with commas. -/
def mergeSyncL (l : List Char) : List Char :=
  joinComma
    (skipOptionL ::
      (optionTokens l).filter (fun t => !isPrefOf skipKeyL t))

/-- The merged sync-options value on strings. -/
def mergeSync (s : String) : String :=
  ⟨mergeSyncL s.data⟩

/-- Failures of `append_argo_annotation` other than from parsing: `KeyError`
when the document has no `metadata` key, `AttributeError` when `metadata`
or `annotations` is not a mapping or the current sync-options value is not
a string. -/
inductive AppendError where
  | parsing (e : SecretParsingError) : AppendError
  | keyError : AppendError
  | attrError : AppendError
deriving DecidableEq

/-- Model of `annotations.get(sync_key, "")` followed by `.split`: the current
sync-options value, `""` when the key is absent, `AttributeError` when the
stored value is not a string. -/
def currentSyncValue (annEntries : List (String × Yaml)) :
    Except AppendError String :=
  match lookupKey annEntries syncKey with
  | some (.str cur) => .ok cur
  | some _ => .error .attrError
  | none => .ok ""

/-- The pure document transformation of `append_argo_annotation`:
`secret["metadata"].setdefault("annotations", {})`, read the current
sync-options value (default `""`), merge, store the result back. -/
def appendArgoDoc (m : List (String × Yaml)) :
    Except AppendError (List (String × Yaml)) :=
  match lookupKey m "metadata" with
  | none => .error .keyError
  | some (.map mdEntries) =>
    match (lookupKey mdEntries "annotations").getD (.map []) with
    | .map annEntries =>
      match currentSyncValue annEntries with
      | .error e => .error e
      | .ok cur =>
        .ok (setKey m "metadata"
          (.map (setKey mdEntries "annotations"
            (.map (setKey annEntries syncKey (.str (mergeSync cur)))))))
    | _ => .error .attrError
  | some _ => .error .attrError

/-- Model of `append_argo_annotation(filename)` at the file level: parse the file
(raising parse failures), return without writing when the file is empty,
otherwise transform the document and re-serialise it.  The result is
`none` when nothing is written, `some f` when `f` is written to the path. -/
def appendArgoFile (path : String) (f? : Option File) :
    Except AppendError (Option File) :=
  match parse_secret_file path f? with
  | .error e => .error (.parsing e)
  | .ok none => .ok none
  | .ok (some m) =>
    match appendArgoDoc m with
    | .error e => .error e
    | .ok m2 => .ok (some ⟨dumpYaml (.map m2), .docs [.map m2]⟩)

/-! ### `host.py`: `normalize_version`

The regular expression `^\d+\.\d+\.\d+(?:-[\w.]+)?(?:\+[\w.]+)?$` is
compiled into a deterministic checker: since the character classes exclude
`.` (between numbers), `-` and `+`, greedy matching never needs
backtracking.  `\d` and `\w` are modelled over their ASCII ranges. -/

/-- The class `\d`. -/
def isDigitC (c : Char) : Bool := c.isDigit

/-- The class `[\w.]`: word characters or a dot. -/
def isWordDotC (c : Char) : Bool := c.isAlphanum || c = '_' || c = '.'

/-- Consume `\d+`; `none` when no digit is present. -/
def chompDigits (l : List Char) : Option (List Char) :=
  match l.takeWhile isDigitC with
  | [] => none
  | _ => some (l.dropWhile isDigitC)

/-- Consume one expected character. -/
def chompChar (c : Char) (l : List Char) : Option (List Char) :=
  match l with
  | [] => none
  | x :: r => if x = c then some r else none

/-- Consume `[\w.]+`; `none` when no class character is present. -/
def chompWordDots (l : List Char) : Option (List Char) :=
  match l.takeWhile isWordDotC with
  | [] => none
  | _ => some (l.dropWhile isWordDotC)

/-- Match `(?:\+[\w.]+)?$`. -/
def semverBuild : List Char → Bool
  | [] => true
  | '+' :: r =>
    match chompWordDots r with
    | some [] => true
    | _ => false
  | _ => false

/-- Match `(?:-[\w.]+)?(?:\+[\w.]+)?$`. -/
def semverTail : List Char → Bool
  | [] => true
  | '-' :: r =>
    match chompWordDots r with
    | some rest => semverBuild rest
    | none => false
  | l => semverBuild l

/-- Model of `_SEMVER_PATTERN.match` from `host.py`:
`^\d+\.\d+\.\d+(?:-[\w.]+)?(?:\+[\w.]+)?$`. -/
def semverMatchL (l : List Char) : Bool :=
  match chompDigits l with
  | none => false
  | some r1 =>
    match chompChar '.' r1 with
    | none => false
    | some r2 =>
      match chompDigits r2 with
      | none => false
      | some r3 =>
        match chompChar '.' r3 with
        | none => false
        | some r4 =>
          match chompDigits r4 with
          | none => false
          | some r5 => semverTail r5

/-- The semantic-version pattern on strings. -/
def semverMatch (s : String) : Bool := semverMatchL s.data

/-- Model of `normalize_version(version)` from `host.py`: reject empty input, strip
one optional leading `v`, reject when the remainder is empty or fails the
semantic-version pattern.  `ValueError` is modelled as `Except String` with
the messages of the source. -/
def normalize_version (version : String) : Except String String :=
  if version.data = [] then
    .error "Version string cannot be None or empty"
  else
    let normalized : String :=
      if isPrefOf "v".data version.data then ⟨version.data.tail⟩ else version
    if normalized.data = [] then
      .error ("Invalid version string: " ++ version ++
        " results in empty version after normalization")
    else if !semverMatch normalized then
      .error ("Invalid version format: " ++ normalized ++
        " does not match semantic versioning pattern")
    else
      .ok normalized

/-! ### `cluster.py`: `find_latest_sealed_secrets_controller_certificate` -/

/-- The fields of a namespace secret that the lookup reads. -/
structure K8sSecret where
  name : String
  secretType : String
  creationTimestamp : Nat
deriving DecidableEq

/-- The filter of the loop in
`find_latest_sealed_secrets_controller_certificate`:
`"sealed-secrets" in secret.metadata.name and
 secret.type == "kubernetes.io/tls"`. -/
def tlsControllerCandidates (l : List K8sSecret) : List K8sSecret :=
  l.filter (fun s =>
    containsSub "sealed-secrets" s.name && s.secretType == "kubernetes.io/tls")

/-- Stable insertion for ascending sort by creation timestamp. -/
def insertByTs (x : K8sSecret) : List K8sSecret → List K8sSecret
  | [] => [x]
  | y :: ys =>
    if x.creationTimestamp ≤ y.creationTimestamp then x :: y :: ys
    else y :: insertByTs x ys

/-- The stable ascending Python `list.sort(key=lambda x: x["timestamp"])`. -/
def sortByTs : List K8sSecret → List K8sSecret
  | [] => []
  | x :: xs => insertByTs x (sortByTs xs)

/-- Model of `find_latest_sealed_secrets_controller_certificate` from `cluster.py`:
filter to sealed-secrets TLS certificates, raise `ControllerNotFoundError`
when none remain, else sort ascending by creation timestamp and return the
name of the last. -/
def find_latest_controller_certificate (l : List K8sSecret) :
    Except String String :=
  let cands := tlsControllerCandidates l
  if cands.isEmpty then
    .error "No sealed-secrets TLS certificates found in the cluster"
  else
    .ok ((sortByTs cands).getLastD ⟨"", "", 0⟩).name

/-! ### Filesystem model

A filesystem maps each path to the file stored there, if any.  Directory
enumeration (`Path(src).rglob("*.yaml")`) is modelled by the list of `*.yaml`
paths it yields, in traversal order. -/

/-- A filesystem: path to optional file. -/
def FS : Type := String → Option File

/-- Write (`some f`) or remove (`none`) the file at a path. -/
def FS.set (fs : FS) (p : String) (f? : Option File) : FS :=
  fun q => if q = p then f? else fs q

theorem FS.set_same (fs : FS) (p : String) (f? : Option File) :
    fs.set p f? p = f? := by
  simp [FS.set]

theorem FS.set_other (fs : FS) (p q : String) (f? : Option File)
    (h : q ≠ p) : fs.set p f? q = fs q := by
  simp [FS.set, h]

/-- The effect of `append_argo_annotation(filename)` on the filesystem:
propagate raised errors, leave the filesystem untouched when nothing is
written, else store the re-serialised document at the path. -/
def appendArgoFS (fs : FS) (p : String) : Except AppendError FS :=
  match appendArgoFile p (fs p) with
  | .error e => .error e
  | .ok none => .ok fs
  | .ok (some f2) => .ok (fs.set p (some f2))

/-! ### `secrets/sealing.py`: `_find_sealed_secrets` -/

/-- The exceptions the body of the `_find_sealed_secrets` loop can raise:
`SecretParsingError` from `parse_secret_file`, `KeyError` from
`secret["kind"]` when the mapping has no `kind` key.  Both are caught by the
loop. -/
inductive ScanError where
  | parseFailed (e : SecretParsingError) : ScanError
  | keyError : ScanError
deriving DecidableEq

/-- The `try` body of the `_find_sealed_secrets` loop for one path: parse
the file and test `secret is not None and secret["kind"] == "SealedSecret"`.
A non-string `kind` value compares unequal in Python, hence `.ok false`. -/
def scanStep (fs : FS) (p : String) : Except ScanError Bool :=
  match parse_secret_file p (fs p) with
  | .error e => .error (.parseFailed e)
  | .ok none => .ok false
  | .ok (some m) =>
    match lookupKey m "kind" with
    | none => .error .keyError
    | some (.str s) => .ok (s == "SealedSecret")
    | some _ => .ok false

/-- Whether the loop keeps the path: raised `KeyError` / `SecretParsingError`
are caught and the path skipped. -/
def keepPath (fs : FS) (p : String) : Bool :=
  match scanStep fs p with
  | .ok b => b
  | .error _ => false

/-- Model of `_find_sealed_secrets(src)` from `secrets/sealing.py` over the `*.yaml`
paths of the directory. -/
def find_sealed_secrets (fs : FS) (dir : List String) : List String :=
  dir.filter (keepPath fs)

/-! ### `secrets/sealing.py`: `reencrypt_secrets` -/

/-- One run of the external `kubeseal --re-encrypt` subprocess: the exit
code and the bytes it wrote to the redirected stdout file (complete output
on success, partial output on failure — opening the file for writing always
creates it). -/
structure CmdResult where
  exitCode : Nat
  stdout : File

/-- The external command as an oracle: what one invocation does given the
path being processed and the file piped to stdin. -/
def CmdRun : Type := String → File → CmdResult

/-- Errors that can abort the batch: the `click.ClickException` raised on a
non-zero exit (naming the file and the exit code, as the source message
interpolates both), an uncaught failure from `append_argo_annotation` on the
re-encrypted output, and the unreachable missing-input case
(`shutil.copy2` on an absent source). -/
inductive BatchError where
  | reencryptFailed (path : String) (exitCode : Nat) : BatchError
  | appendRaised (e : AppendError) : BatchError
  | sourceMissing (path : String) : BatchError
deriving DecidableEq

/-- One iteration of the `reencrypt_secrets` loop on the file at `p`:
back up (`shutil.copy2`), run the command with stdout at `p ++ "_new"`,
on success atomically replace, delete the backup and re-apply
`append_argo_annotation`; on failure restore from the backup, delete the
temporary output and raise.  Returns the filesystem, the number of external
invocations made (0 or 1), and the raised error if any. -/
def reencryptOne (run : CmdRun) (fs : FS) (p : String) :
    FS × Nat × Option BatchError :=
  let bak := p ++ "_backup"
  let tmp := p ++ "_new"
  match fs p with
  | none => (fs, 0, some (.sourceMissing p))
  | some f =>
    let fs1 := fs.set bak (some f)
    let r := run p f
    let fs2 := fs1.set tmp (some r.stdout)
    if r.exitCode = 0 then
      let fs3 := ((fs2.set p (some r.stdout)).set tmp none).set bak none
      match appendArgoFile p (fs3 p) with
      | .error e => (fs3, 1, some (.appendRaised e))
      | .ok none => (fs3, 1, none)
      | .ok (some f2) => (fs3.set p (some f2), 1, none)
    else
      let fs3 :=
        match fs2 bak with
        | some b => (fs2.set p (some b)).set bak none
        | none => fs2
      let fs4 := fs3.set tmp none
      (fs4, 1, some (.reencryptFailed p r.exitCode))

/-- The `for secret in secrets` loop of `reencrypt_secrets`: process files
in order, stop at the first raised error. -/
def processSecrets (run : CmdRun) (fs : FS) (calls : Nat) :
    List String → FS × Nat × Option BatchError
  | [] => (fs, calls, none)
  | p :: rest =>
    match reencryptOne run fs p with
    | (fs2, n, some e) => (fs2, calls + n, some e)
    | (fs2, n, none) => processSecrets run fs2 (calls + n) rest

/-- Model of `reencrypt_secrets(src, kubeseal_cmd)` from `secrets/sealing.py`:
discover SealedSecret files; when none are found warn and return (a no-op,
not an error); otherwise run the loop.  Returns the final filesystem, the
number of external command invocations, and the error that aborted the
batch, if any. -/
def reencrypt_secrets (run : CmdRun) (fs : FS) (dir : List String) :
    FS × Nat × Option BatchError :=
  let secrets := find_sealed_secrets fs dir
  if secrets.isEmpty then (fs, 0, none)
  else processSecrets run fs 0 secrets

/-- Whether processing the file at `p` (with on-disk state `f?`) runs to
completion: the file exists, the external command exits zero, and
`append_argo_annotation` accepts the command output. -/
def stepOk (run : CmdRun) (p : String) (f? : Option File) : Bool :=
  match f? with
  | none => false
  | some f =>
    (run p f).exitCode == 0 &&
      (match appendArgoFile p (some (run p f).stdout) with
       | .ok _ => true
       | .error _ => false)

/-! ### `secrets/creation.py`: `create_regcred_secret` -/

/-- A subprocess invocation as built by the secret-creation helpers: the
argv list and the bytes supplied on the standard input of the child. -/
structure SubprocessCall where
  argv : List String
  stdinData : String
deriving DecidableEq

/-- Model of `create_regcred_secret` from `secrets/creation.py`, after
`prompt_docker_credentials` returned `(server, username, password)`: the
kubectl argv carries `--docker-password-stdin` while the password itself is
the stdin payload of the subprocess (`input_data=docker_password.encode()`). -/
def create_regcred_secret (name ns server username password : String) :
    SubprocessCall :=
  { argv :=
      [ "kubectl", "create", "secret", "docker-registry", name,
        "--namespace", ns,
        "--docker-server=" ++ server,
        "--docker-username=" ++ username,
        "--docker-password-stdin",
        "--dry-run=client", "-o", "yaml" ],
    stdinData := password }

/-! ### `cli.py` dispatch with the `core/kubeseal.py` facade

`cli()` constructs `Kubeseal(certificate=cert, select_context=select)`;
`certificate is not None` puts the facade in detached mode with
`cluster = None`.  The flag branches run in source order: `--fetch`,
`--backup`, `--re-encrypt`, `--edit`, else interactive creation.
`fetch_certificate()` and `backup()` raise `click.ClickException` when
`self.cluster is None`; `reencrypt()` has no such check and calls
`reencrypt_secrets` with the detached-mode command. -/

/-- The CLI options relevant to dispatch (after `--version` handling). -/
structure CliOpts where
  fetch : Bool
  cert : Option String
  edit : Option String
  reEncrypt : Option String
  backup : Bool
deriving DecidableEq

/-- What a CLI invocation does: raise a `click.ClickException` with the
given message, or execute one of the operations (re-encryption recording
whether it runs against the cluster or detached with `--cert`). -/
inductive CliAction where
  | rejected (msg : String) : CliAction
  | ranFetch : CliAction
  | ranBackup : CliAction
  | ranReencrypt (src : String) (detachedMode : Bool) : CliAction
  | ranEdit (file : String) : CliAction
  | ranCreate : CliAction
deriving DecidableEq

/-- Model of `Kubeseal.fetch_certificate` (`core/kubeseal.py`): rejected in detached
mode, else fetches. -/
def kubesealFetchCertificate (detachedMode : Bool) : CliAction :=
  if detachedMode then
    .rejected "Fetching certificate is not available in detached mode"
  else .ranFetch

/-- Model of `Kubeseal.backup` (`core/kubeseal.py`): rejected in detached mode, else
backs up the controller secret. -/
def kubesealBackup (detachedMode : Bool) : CliAction :=
  if detachedMode then
    .rejected "Backup is not available in detached mode"
  else .ranBackup

/-- Model of `Kubeseal.reencrypt` (`core/kubeseal.py`): no detached-mode check; the
batch runs with the kubeseal command of the mode. -/
def kubesealReencrypt (detachedMode : Bool) (src : String) : CliAction :=
  .ranReencrypt src detachedMode

/-- The flag dispatch of `cli()` in `cli.py`. -/
def cliDispatch (o : CliOpts) : CliAction :=
  let detachedMode := o.cert.isSome
  if o.fetch then kubesealFetchCertificate detachedMode
  else if o.backup then kubesealBackup detachedMode
  else
    match o.reEncrypt with
    | some src => kubesealReencrypt detachedMode src
    | none =>
      match o.edit with
      | some file => .ranEdit file
      | none => .ranCreate

/-! ### Concrete fixtures used to instantiate the theorems -/

/-- A well-formed SealedSecret document. -/
def sealedDoc : Yaml :=
  .map [("kind", .str "SealedSecret"), ("metadata", .map [("name", .str "a")])]

/-- A file loading to a single SealedSecret document. -/
def sealedFile : File := ⟨"sealed-bytes", .docs [sealedDoc]⟩

/-- A file loading to a single non-SealedSecret document. -/
def otherFile : File :=
  ⟨"other-bytes", .docs [.map [("kind", .str "ConfigMap")]]⟩

/-- A file whose YAML is malformed. -/
def badFile : File := ⟨"oops", .malformed⟩

/-- A file loading to only null documents. -/
def emptyFile : File := ⟨"", .docs [.null]⟩

/-- A two-file filesystem: one SealedSecret, one other document. -/
def fsTwo : FS := fun p =>
  if p = "a.yaml" then some sealedFile
  else if p = "b.yaml" then some otherFile
  else none

/-- A filesystem holding one SealedSecret and one malformed file. -/
def fsScan : FS := fun p =>
  if p = "good.yaml" then some sealedFile
  else if p = "bad.yaml" then some badFile
  else none

/-- A filesystem holding a single SealedSecret file. -/
def fsOne : FS := fun p => if p = "c.yaml" then some sealedFile else none

/-- A filesystem holding one file with only null documents. -/
def fsEmpty : FS := fun p => if p = "e.yaml" then some emptyFile else none

/-- An external command that always succeeds, emitting a well-formed
SealedSecret document. -/
def runOk : CmdRun := fun _ _ => ⟨0, sealedFile⟩

/-- An external command that always fails with exit code 2, leaving a
truncated output file behind. -/
def runFail : CmdRun := fun _ _ => ⟨2, ⟨"partial", .malformed⟩⟩

/-! ## Theorems -/

/-- A string matching the semantic-version pattern begins with a digit. -/
theorem semverMatchL_head (l : List Char) (h : semverMatchL l = true) :
    ∃ c r, l = c :: r ∧ isDigitC c = true := by
  cases l with
  | nil => simp [semverMatchL, chompDigits] at h
  | cons c r =>
    cases hdc : isDigitC c with
    | false => simp [semverMatchL, chompDigits, List.takeWhile_cons, hdc] at h
    | true => exact ⟨c, r, rfl, hdc⟩

/-- C8: `normalize_version` strips exactly one optional leading `v` and
validates the result against the `MAJOR.MINOR.PATCH` semantic-version
pattern: `"v1.2.3"` and `"1.2.3"` both normalize to `"1.2.3"`, while `""`
and `"not-a-version"` both raise a `ValueError`; in general every string
matching the pattern is accepted both bare and with one leading `v`,
yielding the bare string. -/
theorem C8_normalize_version :
    normalize_version "v1.2.3" = .ok "1.2.3" ∧
    normalize_version "1.2.3" = .ok "1.2.3" ∧
    normalize_version "" = .error "Version string cannot be None or empty" ∧
    (∃ msg, normalize_version "not-a-version" = .error msg) ∧
    (∀ s : String, semverMatch s = true →
      normalize_version ⟨'v' :: s.data⟩ = .ok s ∧ normalize_version s = .ok s) := by
  refine ⟨rfl, rfl, rfl, ⟨_, rfl⟩, ?_⟩
  intro s hs
  obtain ⟨c, r, hdat, hdc⟩ := semverMatchL_head s.data hs
  have hs3 : semverMatchL s.data = true := hs
  have hsd : s.data ≠ [] := by rw [hdat]; exact List.cons_ne_nil _ _
  have hv : ("v" : String).data = ['v'] := rfl
  have heta : (⟨s.data⟩ : String) = s := rfl
  have hne : ('v' = c) = False := by
    simp only [eq_iff_iff, iff_false]
    intro h
    rw [← h] at hdc
    exact absurd hdc (by decide)
  constructor
  · have h1 : (⟨'v' :: s.data⟩ : String).data = 'v' :: s.data := rfl
    simp [normalize_version, h1, hv, isPrefOf, hsd, heta, semverMatch, hs3]
  · have hpre : isPrefOf ("v" : String).data s.data = false := by
      rw [hdat, hv]
      simp [isPrefOf, hne]
    simp [normalize_version, hsd, hpre, semverMatch, hs3]

/-- Witness for C8 at a concrete pattern instance. -/
theorem C8_normalize_version_witness :
    normalize_version ⟨'v' :: ("9.9.9" : String).data⟩ = .ok "9.9.9" ∧
    normalize_version "9.9.9" = .ok "9.9.9" :=
  C8_normalize_version.2.2.2.2 "9.9.9" (by decide)

/-- C3: the secret-file parse returns `None` exactly when the file holds
zero non-null YAML documents, raises `SecretParsingError` exactly when it
holds more than one non-null document, or the single survivor is not a
mapping, or the file is missing, or the YAML is malformed, and otherwise
returns the single parsed mapping. -/
theorem C3_parse_secret_file (p : String) (f? : Option File) :
    (parse_secret_file p f? = .ok none ↔
      ∃ f, f? = some f ∧ nonNullDocs f = some []) ∧
    ((∃ e, parse_secret_file p f? = .error e) ↔
      (f? = none ∨
        ∃ f, f? = some f ∧
          (nonNullDocs f = none ∨
            (∃ l, nonNullDocs f = some l ∧ 1 < l.length) ∨
            (∃ d, nonNullDocs f = some [d] ∧ d.isMap = false)))) ∧
    (∀ m, parse_secret_file p f? = .ok (some m) →
      ∃ f, f? = some f ∧ nonNullDocs f = some [Yaml.map m]) := by
  cases f? with
  | none => simp [parse_secret_file]
  | some f =>
    cases hL : f.load with
    | malformed => simp [parse_secret_file, nonNullDocs, hL]
    | docs ds =>
      cases hnn : ds.filter (fun d => !d.isNull) with
      | nil => simp [parse_secret_file, nonNullDocs, hL, hnn]
      | cons d rest =>
        cases rest with
        | nil => cases d <;> simp [parse_secret_file, nonNullDocs, hL, hnn, Yaml.isMap]
        | cons d2 rest2 =>
          simp [parse_secret_file, nonNullDocs, hL, hnn]

/-- Witness for C3: an all-null file parses to `None`. -/
theorem C3_parse_secret_file_witness :
    parse_secret_file "e.yaml" (some emptyFile) = .ok none :=
  (C3_parse_secret_file "e.yaml" (some emptyFile)).1.mpr ⟨emptyFile, rfl, rfl⟩

/-- C4 counterexample: the claim "for every password value the argv
list contains no element containing the password" fails when the password
happens to coincide with fixed command text: with password `"kubectl"`, the
argv element `"kubectl"` contains the password. -/
theorem C4_counterexample :
    ((create_regcred_secret "n" "d" "s" "u" "kubectl").argv.any
      (fun a => containsSub "kubectl" a)) = true := by decide

/-- C4 amended: the docker-registry kubectl argv is built without the
password — it is one and the same list for every password value — and the
password reaches the subprocess solely as its standard-input payload; hence
no argv element can contain the password except by coincidence with
password-independent text. -/
theorem C4_password_via_stdin (name ns server username pw pw2 : String) :
    (create_regcred_secret name ns server username pw).argv =
      (create_regcred_secret name ns server username pw2).argv ∧
    (create_regcred_secret name ns server username pw).stdinData = pw :=
  ⟨rfl, rfl⟩

/-- C5 counterexample: `--cert` combined with `--re-encrypt` is not
rejected: the dispatch runs the re-encrypt batch in detached mode. -/
theorem C5_counterexample :
    cliDispatch ⟨false, some "cert.crt", none, some "./secrets", false⟩ =
      .ranReencrypt "./secrets" true ∧
    ∀ msg,
      cliDispatch ⟨false, some "cert.crt", none, some "./secrets", false⟩ ≠
        .rejected msg := by
  refine ⟨rfl, ?_⟩
  intro msg h
  exact CliAction.noConfusion h

/-- C5 amended: with `--cert` given, `--fetch` and `--backup` are
rejected with a `click.ClickException`, while `--re-encrypt` is not
rejected — it executes the batch in detached mode. -/
theorem C5_cert_exclusivity (o : CliOpts) (hc : o.cert.isSome = true) :
    (o.fetch = true →
      cliDispatch o =
        .rejected "Fetching certificate is not available in detached mode") ∧
    (o.fetch = false → o.backup = true →
      cliDispatch o = .rejected "Backup is not available in detached mode") ∧
    (∀ src, o.fetch = false → o.backup = false → o.reEncrypt = some src →
      cliDispatch o = .ranReencrypt src true) := by
  refine ⟨?_, ?_, ?_⟩
  · intro hf
    simp [cliDispatch, hf, hc, kubesealFetchCertificate]
  · intro hf hb
    simp [cliDispatch, hf, hb, hc, kubesealBackup]
  · intro src hf hb hr
    simp [cliDispatch, hf, hb, hr, hc, kubesealReencrypt]

/-- Witness for C5 (amended) at a concrete invocation. -/
theorem C5_cert_exclusivity_witness :
    cliDispatch ⟨true, some "c.crt", none, none, false⟩ =
      .rejected "Fetching certificate is not available in detached mode" :=
  (C5_cert_exclusivity ⟨true, some "c.crt", none, none, false⟩ rfl).1 rfl

/-- C6: during SealedSecret discovery, a path whose scan body raises
(`SecretParsingError` from parsing, `KeyError` from a missing `kind`) or
classifies as non-SealedSecret is silently skipped: the scan of the
surrounding directory continues as if the path were absent. -/
theorem C6_scan_skips (fs : FS) (p : String) (xs ys : List String)
    (h : (∃ e, scanStep fs p = .error e) ∨ scanStep fs p = .ok false) :
    find_sealed_secrets fs (xs ++ p :: ys) =
      find_sealed_secrets fs xs ++ find_sealed_secrets fs ys := by
  have hk : keepPath fs p = false := by
    rcases h with ⟨e, he⟩ | h
    · simp [keepPath, he]
    · simp [keepPath, h]
  simp [find_sealed_secrets, List.filter_append, List.filter_cons, hk]

/-- Witness for C6: a malformed file between two SealedSecret files is
skipped and scanning continues. -/
theorem C6_scan_skips_witness :
    find_sealed_secrets fsScan (["good.yaml"] ++ "bad.yaml" :: ["good.yaml"]) =
      find_sealed_secrets fsScan ["good.yaml"] ++
        find_sealed_secrets fsScan ["good.yaml"] :=
  C6_scan_skips fsScan "bad.yaml" ["good.yaml"] ["good.yaml"]
    (Or.inl ⟨.parseFailed (.malformedYaml "bad.yaml"), rfl⟩)

/-- C9: on a file with zero non-null YAML documents the annotation
append is a no-op: it neither raises nor writes, leaving the filesystem
unchanged. -/
theorem C9_append_empty_noop (fs : FS) (p : String) (f : File) (ds : List Yaml)
    (hfs : fs p = some f) (hload : f.load = .docs ds)
    (hnull : ds.filter (fun d => !d.isNull) = []) :
    appendArgoFS fs p = .ok fs := by
  have hp : parse_secret_file p (fs p) = .ok none := by
    rw [hfs]
    simp [parse_secret_file, hload, hnull]
  simp [appendArgoFS, appendArgoFile, hp]

/-- Witness for C9 at a concrete all-null file. -/
theorem C9_append_empty_noop_witness : appendArgoFS fsEmpty "e.yaml" = .ok fsEmpty :=
  C9_append_empty_noop fsEmpty "e.yaml" emptyFile [.null] rfl rfl rfl

/-- Membership through stable timestamp insertion. -/
theorem mem_insertByTs (x y : K8sSecret) (l : List K8sSecret) :
    y ∈ insertByTs x l ↔ y = x ∨ y ∈ l := by
  induction l with
  | nil => simp [insertByTs]
  | cons z zs ih =>
    by_cases h : x.creationTimestamp ≤ z.creationTimestamp
    · simp [insertByTs, h, List.mem_cons]
    · simp [insertByTs, h, List.mem_cons, ih]
      tauto

/-- Membership through the timestamp sort. -/
theorem mem_sortByTs (y : K8sSecret) (l : List K8sSecret) :
    y ∈ sortByTs l ↔ y ∈ l := by
  induction l with
  | nil => simp [sortByTs]
  | cons x xs ih => simp [sortByTs, mem_insertByTs, ih, List.mem_cons]

/-- Insertion preserves ascending-by-timestamp ordering. -/
theorem sorted_insertByTs (x : K8sSecret) (l : List K8sSecret)
    (h : l.Pairwise (fun a b => a.creationTimestamp ≤ b.creationTimestamp)) :
    (insertByTs x l).Pairwise
      (fun a b => a.creationTimestamp ≤ b.creationTimestamp) := by
  induction l with
  | nil => simp [insertByTs]
  | cons z zs ih =>
    rcases List.pairwise_cons.mp h with ⟨hz, hzs⟩
    by_cases hle : x.creationTimestamp ≤ z.creationTimestamp
    · rw [show insertByTs x (z :: zs) = x :: z :: zs by simp [insertByTs, hle]]
      refine List.pairwise_cons.mpr ⟨?_, h⟩
      intro b hb
      rcases List.mem_cons.mp hb with rfl | hb2
      · exact hle
      · exact le_trans hle (hz b hb2)
    · rw [show insertByTs x (z :: zs) = z :: insertByTs x zs by
        simp [insertByTs, hle]]
      refine List.pairwise_cons.mpr ⟨?_, ih hzs⟩
      intro b hb
      rcases (mem_insertByTs x b zs).mp hb with rfl | hb2
      · exact le_of_not_le hle
      · exact hz b hb2

/-- The timestamp sort is ascending. -/
theorem sorted_sortByTs (l : List K8sSecret) :
    (sortByTs l).Pairwise
      (fun a b => a.creationTimestamp ≤ b.creationTimestamp) := by
  induction l with
  | nil => simp [sortByTs]
  | cons x xs ih => exact sorted_insertByTs x (sortByTs xs) ih

/-- The last element of a non-empty list is a member. -/
theorem getLastD_mem (l : List K8sSecret) (d : K8sSecret) (h : l ≠ []) :
    l.getLastD d ∈ l := by
  induction l generalizing d with
  | nil => exact absurd rfl h
  | cons x xs ih =>
    rw [List.getLastD_cons]
    cases hxs : xs with
    | nil => simp [List.getLastD_nil]
    | cons y ys =>
      subst hxs
      exact List.mem_cons_of_mem x (ih x (List.cons_ne_nil y ys))

/-- In an ascending list every element is bounded by the last one. -/
theorem le_getLastD_of_sorted (l : List K8sSecret) (d : K8sSecret)
    (h : l.Pairwise (fun a b => a.creationTimestamp ≤ b.creationTimestamp)) :
    ∀ y ∈ l, y.creationTimestamp ≤ (l.getLastD d).creationTimestamp := by
  induction l generalizing d with
  | nil => simp
  | cons x xs ih =>
    rcases List.pairwise_cons.mp h with ⟨hx, hxs⟩
    intro y hy
    rw [List.getLastD_cons]
    cases hxs2 : xs with
    | nil =>
      subst hxs2
      rw [List.getLastD_nil]
      rcases List.mem_singleton.mp hy with rfl
      exact le_refl _
    | cons z zs =>
      subst hxs2
      rcases List.mem_cons.mp hy with rfl | hy2
      · exact hx _ (getLastD_mem (z :: zs) _ (List.cons_ne_nil z zs))
      · exact ih x hxs y hy2

/-- C10: the latest-controller-certificate lookup raises
`ControllerNotFoundError` exactly when no namespace secret both contains
`"sealed-secrets"` in its name and has type `"kubernetes.io/tls"`; otherwise
it returns the name of a candidate whose creation timestamp is greatest
among the candidates. -/
theorem C10_latest_certificate (l : List K8sSecret) :
    (tlsControllerCandidates l = [] →
      find_latest_controller_certificate l =
        .error "No sealed-secrets TLS certificates found in the cluster") ∧
    (tlsControllerCandidates l ≠ [] →
      ∃ s ∈ tlsControllerCandidates l,
        find_latest_controller_certificate l = .ok s.name ∧
        ∀ t ∈ tlsControllerCandidates l,
          t.creationTimestamp ≤ s.creationTimestamp) := by
  constructor
  · intro h
    simp [find_latest_controller_certificate, h]
  · intro h
    have hs : sortByTs (tlsControllerCandidates l) ≠ [] := by
      intro hnil
      apply h
      cases hc : tlsControllerCandidates l with
      | nil => rfl
      | cons a as =>
        exfalso
        have : a ∈ sortByTs (tlsControllerCandidates l) := by
          rw [mem_sortByTs, hc]
          exact List.mem_cons_self a as
        rw [hnil] at this
        exact List.not_mem_nil a this
    refine ⟨(sortByTs (tlsControllerCandidates l)).getLastD ⟨"", "", 0⟩, ?_, ?_, ?_⟩
    · rw [← mem_sortByTs]
      exact getLastD_mem _ _ hs
    · simp [find_latest_controller_certificate, List.isEmpty_iff, h]
    · intro t ht
      exact le_getLastD_of_sorted _ _ (sorted_sortByTs _) t
        ((mem_sortByTs t _).mpr ht)

/-- Witness for C10: a two-candidate namespace. -/
theorem C10_latest_certificate_witness :
    ∃ s ∈ tlsControllerCandidates
        [⟨"sealed-secrets-key-a", "kubernetes.io/tls", 3⟩,
         ⟨"unrelated", "Opaque", 9⟩,
         ⟨"sealed-secrets-key-b", "kubernetes.io/tls", 7⟩],
      find_latest_controller_certificate
        [⟨"sealed-secrets-key-a", "kubernetes.io/tls", 3⟩,
         ⟨"unrelated", "Opaque", 9⟩,
         ⟨"sealed-secrets-key-b", "kubernetes.io/tls", 7⟩] = .ok s.name ∧
      ∀ t ∈ tlsControllerCandidates
          [⟨"sealed-secrets-key-a", "kubernetes.io/tls", 3⟩,
           ⟨"unrelated", "Opaque", 9⟩,
           ⟨"sealed-secrets-key-b", "kubernetes.io/tls", 7⟩],
        t.creationTimestamp ≤ s.creationTimestamp :=
  (C10_latest_certificate _).2 (by decide)

/-! Lemmas on the Python string primitives, leading to idempotence of the
sync-options merge. -/

theorem splitComma_ne_nil (l : List Char) : splitComma l ≠ [] := by
  cases l with
  | nil => simp [splitComma]
  | cons c rest =>
    unfold splitComma
    cases hsp : splitComma rest with
    | nil => simp
    | cons p ps => by_cases h : c = ',' <;> simp [h]

theorem splitComma_cons_eq (c : Char) (rest p : List Char)
    (ps : List (List Char)) (hsp : splitComma rest = p :: ps) :
    splitComma (c :: rest) =
      if c = ',' then [] :: p :: ps else (c :: p) :: ps := by
  rw [show splitComma (c :: rest) =
      (match splitComma rest with
       | [] => [[]]
       | piece :: pieces =>
         if c = ',' then [] :: piece :: pieces else (c :: piece) :: pieces)
    from rfl]
  rw [hsp]

theorem splitComma_no_comma (x : List Char) (h : ',' ∉ x) :
    splitComma x = [x] := by
  induction x with
  | nil => rfl
  | cons c r ih =>
    have hc : ¬(c = ',') := fun hc => h (hc ▸ List.mem_cons_self c r)
    have hr : ',' ∉ r := fun hm => h (List.mem_cons_of_mem c hm)
    rw [splitComma_cons_eq c r r [] (ih hr), if_neg hc]

theorem splitComma_append_comma (x r : List Char) (h : ',' ∉ x) :
    splitComma (x ++ ',' :: r) = x :: splitComma r := by
  induction x with
  | nil =>
    simp only [List.nil_append]
    cases hsp : splitComma r with
    | nil => exact absurd hsp (splitComma_ne_nil r)
    | cons p ps =>
      rw [splitComma_cons_eq ',' r p ps hsp, if_pos rfl]
  | cons c x2 ih =>
    have hc : ¬(c = ',') := fun hc => h (hc ▸ List.mem_cons_self _ _)
    have hx2 : ',' ∉ x2 := fun hm => h (List.mem_cons_of_mem _ hm)
    simp only [List.cons_append]
    rw [splitComma_cons_eq c (x2 ++ ',' :: r) x2 (splitComma r) (ih hx2),
      if_neg hc]

theorem splitComma_joinComma (ps : List (List Char)) (hne : ps ≠ [])
    (h : ∀ p ∈ ps, ',' ∉ p) : splitComma (joinComma ps) = ps := by
  induction ps with
  | nil => exact absurd rfl hne
  | cons p qs ih =>
    cases qs with
    | nil =>
      rw [show joinComma [p] = p from rfl]
      exact splitComma_no_comma p (h p (List.mem_cons_self _ _))
    | cons q qs2 =>
      rw [show joinComma (p :: q :: qs2) = p ++ ',' :: joinComma (q :: qs2)
        from rfl]
      rw [splitComma_append_comma _ _ (h p (List.mem_cons_self _ _))]
      rw [ih (List.cons_ne_nil _ _) (fun x hx => h x (List.mem_cons_of_mem _ hx))]

theorem splitComma_pieces_no_comma (l : List Char) :
    ∀ x ∈ splitComma l, ',' ∉ x := by
  induction l with
  | nil =>
    intro x hx
    simp [splitComma] at hx
    simp [hx]
  | cons c rest ih =>
    intro x hx
    cases hsp : splitComma rest with
    | nil => exact absurd hsp (splitComma_ne_nil rest)
    | cons p ps =>
      rw [splitComma_cons_eq c rest p ps hsp] at hx
      by_cases hc : c = ','
      · rw [if_pos hc] at hx
        rcases List.mem_cons.mp hx with rfl | hx2
        · simp
        · exact ih x (hsp ▸ hx2)
      · rw [if_neg hc] at hx
        rcases List.mem_cons.mp hx with rfl | hx2
        · intro hmem
          rcases List.mem_cons.mp hmem with h1 | h2
          · exact hc h1.symm
          · exact ih p (hsp ▸ List.mem_cons_self p ps) h2
        · exact ih x (hsp ▸ List.mem_cons_of_mem p hx2)

theorem head_dropWhile_not (q : Char → Bool) (l : List Char) (c : Char)
    (hc : (l.dropWhile q).head? = some c) : q c = false := by
  induction l with
  | nil => simp at hc
  | cons a t ih =>
    rw [List.dropWhile_cons] at hc
    by_cases h : q a
    · rw [if_pos h] at hc
      exact ih hc
    · rw [if_neg h] at hc
      simp only [List.head?_cons, Option.some.injEq] at hc
      subst hc
      simp only [Bool.not_eq_true] at h
      exact h

theorem dropWhile_of_head (q : Char → Bool) (l : List Char)
    (h : ∀ c, l.head? = some c → q c = false) : l.dropWhile q = l := by
  cases l with
  | nil => rfl
  | cons a t =>
    have ha := h a rfl
    rw [List.dropWhile_cons]
    simp [ha]

theorem mem_stripChars (c : Char) (l : List Char) (h : c ∈ stripChars l) :
    c ∈ l := by
  unfold stripChars at h
  rw [List.mem_reverse] at h
  have h2 := (List.dropWhile_sublist pySpace).subset h
  rw [List.mem_reverse] at h2
  exact (List.dropWhile_sublist pySpace).subset h2

theorem stripChars_last (l : List Char) (c : Char)
    (h : (stripChars l).getLast? = some c) : pySpace c = false := by
  unfold stripChars at h
  rw [List.getLast?_eq_head?_reverse, List.reverse_reverse] at h
  exact head_dropWhile_not _ _ _ h

theorem stripChars_head (l : List Char) (c : Char)
    (h : (stripChars l).head? = some c) : pySpace c = false := by
  obtain ⟨t, ht⟩ := List.dropWhile_suffix (l := (l.dropWhile pySpace).reverse) pySpace
  have hu : l.dropWhile pySpace = stripChars l ++ t.reverse := by
    have := congrArg List.reverse ht
    rw [List.reverse_append, List.reverse_reverse] at this
    exact this.symm
  have hhead : (l.dropWhile pySpace).head? = some c := by
    rw [hu, List.head?_append, h]
    rfl
  exact head_dropWhile_not _ _ _ hhead

theorem stripChars_idem (l : List Char) :
    stripChars (stripChars l) = stripChars l := by
  have h1 : (stripChars l).dropWhile pySpace = stripChars l :=
    dropWhile_of_head _ _ (fun c hc => stripChars_head l c hc)
  have h2 : ((stripChars l).reverse).dropWhile pySpace = (stripChars l).reverse :=
    dropWhile_of_head _ _ (fun c hc => by
      rw [List.head?_reverse] at hc
      exact stripChars_last l c hc)
  show (((stripChars l).dropWhile pySpace).reverse.dropWhile pySpace).reverse =
    stripChars l
  rw [h1, h2, List.reverse_reverse]

theorem mem_optionTokens (l t : List Char) (h : t ∈ optionTokens l) :
    stripChars t = t ∧ t.isEmpty = false ∧ ',' ∉ t := by
  unfold optionTokens at h
  rcases List.mem_filter.mp h with ⟨hmap, hne⟩
  rcases List.mem_map.mp hmap with ⟨piece, hpiece, rfl⟩
  refine ⟨stripChars_idem piece, by simpa using hne, ?_⟩
  intro hmem
  exact splitComma_pieces_no_comma l piece hpiece (mem_stripChars ',' piece hmem)

theorem map_stripChars_self (us : List (List Char))
    (h : ∀ t ∈ us, stripChars t = t) : us.map stripChars = us := by
  induction us with
  | nil => rfl
  | cons u us2 ih =>
    rw [List.map_cons, h u (List.mem_cons_self _ _),
      ih (fun t ht => h t (List.mem_cons_of_mem _ ht))]

theorem optionTokens_mergeSyncL (l : List Char) :
    optionTokens (mergeSyncL l) =
      skipOptionL ::
        (optionTokens l).filter (fun t => !isPrefOf skipKeyL t) := by
  set ts := (optionTokens l).filter (fun t => !isPrefOf skipKeyL t) with hts
  have hmem : ∀ t ∈ ts, stripChars t = t ∧ t.isEmpty = false ∧ ',' ∉ t :=
    fun t ht => mem_optionTokens l t (List.mem_filter.mp ht).1
  have h1 : mergeSyncL l = joinComma (skipOptionL :: ts) := by rw [hts]; rfl
  have hsplit : splitComma (joinComma (skipOptionL :: ts)) = skipOptionL :: ts := by
    apply splitComma_joinComma _ (List.cons_ne_nil _ _)
    intro p hp
    rcases List.mem_cons.mp hp with rfl | hp2
    · decide
    · exact (hmem p hp2).2.2
  rw [h1]
  unfold optionTokens
  rw [hsplit, List.map_cons,
    show stripChars skipOptionL = skipOptionL from by decide,
    map_stripChars_self ts (fun t ht => (hmem t ht).1),
    List.filter_cons,
    show (!(skipOptionL).isEmpty) = true from by decide,
    if_pos rfl,
    List.filter_eq_self.mpr (fun t ht => by
      simp only [Bool.not_eq_true']
      exact (hmem t ht).2.1)]

theorem mergeSyncL_idem (l : List Char) :
    mergeSyncL (mergeSyncL l) = mergeSyncL l := by
  conv_lhs => rw [mergeSyncL]
  rw [optionTokens_mergeSyncL l, List.filter_cons,
    show (!isPrefOf skipKeyL skipOptionL) = false from by decide]
  rw [if_neg Bool.false_ne_true]
  rw [List.filter_eq_self.mpr
    (fun t ht => (List.mem_filter.mp ht).2)]
  rfl

/-- The sync-options merge is idempotent on strings. -/
theorem mergeSync_idem (s : String) : mergeSync (mergeSync s) = mergeSync s := by
  show (⟨mergeSyncL (mergeSyncL s.data)⟩ : String) = ⟨mergeSyncL s.data⟩
  rw [mergeSyncL_idem]

theorem lookupKey_setKey (m : List (String × Yaml)) (k : String) (v : Yaml) :
    lookupKey (setKey m k v) k = some v := by
  induction m with
  | nil => simp [setKey, lookupKey]
  | cons e rest ih =>
    obtain ⟨k0, v0⟩ := e
    by_cases h : k0 = k
    · simp [setKey, h, lookupKey]
    · simp [setKey, h, lookupKey, ih]

theorem setKey_setKey (m : List (String × Yaml)) (k : String) (v : Yaml) :
    setKey (setKey m k v) k v = setKey m k v := by
  induction m with
  | nil => simp [setKey]
  | cons e rest ih =>
    obtain ⟨k0, v0⟩ := e
    by_cases h : k0 = k
    · simp [setKey, h]
    · simp [setKey, h, ih]

/-- C7: the annotation merger is idempotent at the document level —
re-applying it to its own output reproduces that output exactly, so in
particular the final `argocd.argoproj.io/sync-options` value after two
applications equals the value after one. -/
theorem C7_append_argo_idempotent (m m2 : List (String × Yaml))
    (h : appendArgoDoc m = .ok m2) : appendArgoDoc m2 = .ok m2 := by
  unfold appendArgoDoc at h
  split at h
  · exact absurd h (by simp)
  case _ mdEntries heq =>
    split at h
    case _ annEntries heq2 =>
      split at h
      · exact absurd h (by simp)
      case _ cur heq3 =>
        rw [Except.ok.injEq] at h
        subst h
        simp [appendArgoDoc, lookupKey_setKey, Option.getD,
          currentSyncValue, mergeSync_idem, setKey_setKey]
    · exact absurd h (by simp)
  · exact absurd h (by simp)

/-- Witness for C7: the merger applied to its own output on a minimal
document. -/
theorem C7_append_argo_idempotent_witness :
    appendArgoDoc
      [("metadata", .map [("annotations",
        .map [(syncKey, .str "SkipDryRunOnMissingResource=true")])])] =
      .ok [("metadata", .map [("annotations",
        .map [(syncKey, .str "SkipDryRunOnMissingResource=true")])])] :=
  C7_append_argo_idempotent [("metadata", Yaml.map [])]
    [("metadata", .map [("annotations",
      .map [(syncKey, .str "SkipDryRunOnMissingResource=true")])])] rfl

/-! Path disequalities: `rglob("*.yaml")` yields only paths ending in
`.yaml`, which can never collide with the `_backup` / `_new` sibling
artifacts (different final characters), and a path never equals itself with
a non-empty suffix appended. -/

theorem str_data_inj (s t : String) (h : s.data = t.data) : s = t := by
  cases s
  cases t
  exact congrArg String.mk h

theorem head_of_isPrefOf_cons (a : Char) (as l : List Char)
    (h : isPrefOf (a :: as) l = true) : l.head? = some a := by
  cases l with
  | nil => simp [isPrefOf] at h
  | cons b t =>
    simp [isPrefOf] at h
    simp [h.1]

theorem yaml_lastChar (p : String) (h : strEndsWith p ".yaml" = true) :
    p.data.getLast? = some 'l' := by
  unfold strEndsWith at h
  rw [show (".yaml" : String).data.reverse = ['l', 'm', 'a', 'y', '.']
    from rfl] at h
  have h2 := head_of_isPrefOf_cons _ _ _ h
  rw [List.head?_reverse] at h2
  exact h2

theorem backup_lastChar (p : String) :
    (p ++ "_backup").data.getLast? = some 'p' := by
  rw [String.data_append,
    @List.getLast?_append_of_ne_nil _ p.data ("_backup" : String).data
      (by decide)]
  rfl

theorem new_lastChar (p : String) :
    (p ++ "_new").data.getLast? = some 'w' := by
  rw [String.data_append,
    @List.getLast?_append_of_ne_nil _ p.data ("_new" : String).data
      (by decide)]
  rfl

theorem ne_of_lastChar (p q : String) (c d : Char)
    (hp : p.data.getLast? = some c) (hq : q.data.getLast? = some d)
    (hcd : c ≠ d) : p ≠ q := by
  intro he
  subst he
  rw [hp] at hq
  exact hcd (Option.some.inj hq)

theorem yaml_ne_backup (q p : String) (hq : strEndsWith q ".yaml" = true) :
    q ≠ p ++ "_backup" :=
  ne_of_lastChar q (p ++ "_backup") 'l' 'p' (yaml_lastChar q hq)
    (backup_lastChar p) (by decide)

theorem yaml_ne_new (q p : String) (hq : strEndsWith q ".yaml" = true) :
    q ≠ p ++ "_new" :=
  ne_of_lastChar q (p ++ "_new") 'l' 'w' (yaml_lastChar q hq)
    (new_lastChar p) (by decide)

theorem str_ne_append (p s : String) (hs : s.data ≠ []) : p ≠ p ++ s := by
  intro h
  have h2 := congrArg String.data h
  rw [String.data_append] at h2
  exact hs (List.self_eq_append_right.mp h2)

theorem self_ne_backup (p : String) : p ≠ p ++ "_backup" :=
  str_ne_append p "_backup" (by decide)

theorem self_ne_new (p : String) : p ≠ p ++ "_new" :=
  str_ne_append p "_new" (by decide)

theorem backup_ne_new (p : String) : p ++ "_backup" ≠ p ++ "_new" := by
  intro h
  have h2 := congrArg String.data h
  rw [String.data_append, String.data_append] at h2
  have h3 := List.append_cancel_left h2
  exact absurd (str_data_inj _ _ h3) (by decide)

/-! Per-file lemmas about one iteration of the re-encryption loop. -/

/-- Processing the file at `p` touches only `p`, `p ++ "_backup"` and
`p ++ "_new"`. -/
theorem reencryptOne_frame (run : CmdRun) (fs : FS) (p q : String)
    (h1 : q ≠ p) (h2 : q ≠ p ++ "_backup") (h3 : q ≠ p ++ "_new") :
    (reencryptOne run fs p).1 q = fs q := by
  unfold reencryptOne
  cases hf : fs p with
  | none => rfl
  | some f =>
    dsimp only
    split
    · split <;> simp [FS.set, h1, h2, h3]
    · split <;> simp [FS.set, h1, h2, h3]

/-- A fully successful iteration makes one external invocation and raises
nothing. -/
theorem reencryptOne_ok (run : CmdRun) (fs : FS) (p : String)
    (h : stepOk run p (fs p) = true) :
    (reencryptOne run fs p).2 = (1, none) := by
  unfold stepOk at h
  cases hf : fs p with
  | none => rw [hf] at h; simp at h
  | some f =>
    rw [hf] at h
    simp only [Bool.and_eq_true, beq_iff_eq] at h
    obtain ⟨hec, happ⟩ := h
    have hfs3 :
        ((((fs.set (p ++ "_backup") (some f)).set (p ++ "_new")
            (some (run p f).stdout)).set p
            (some (run p f).stdout)).set (p ++ "_new") none).set
          (p ++ "_backup") none p = some (run p f).stdout := by
      simp [FS.set, self_ne_backup p, self_ne_new p]
    unfold reencryptOne
    rw [hf]
    dsimp only
    rw [if_pos hec, hfs3]
    cases happ2 : appendArgoFile p (some (run p f).stdout) with
    | error e => rw [happ2] at happ; simp at happ
    | ok w => cases w <;> rfl

/-- A failing iteration makes one external invocation, raises the
`ClickException` naming the path and exit code, restores the original file
from the backup, and removes both sibling artifacts. -/
theorem reencryptOne_fail (run : CmdRun) (fs : FS) (p : String) (f : File)
    (hf : fs p = some f) (hc : ¬(run p f).exitCode = 0) :
    (reencryptOne run fs p).2 =
      (1, some (.reencryptFailed p (run p f).exitCode)) ∧
    (reencryptOne run fs p).1 p = some f ∧
    (reencryptOne run fs p).1 (p ++ "_backup") = none ∧
    (reencryptOne run fs p).1 (p ++ "_new") = none := by
  have hbak :
      ((fs.set (p ++ "_backup") (some f)).set (p ++ "_new")
        (some (run p f).stdout)) (p ++ "_backup") = some f := by
    simp [FS.set, backup_ne_new p]
  unfold reencryptOne
  rw [hf]
  dsimp only
  rw [if_neg hc, hbak]
  refine ⟨rfl, ?_, ?_, ?_⟩
  · simp [FS.set, self_ne_backup p, self_ne_new p, hf]
  · simp [FS.set, backup_ne_new p]
  · simp [FS.set]

/-! Loop-level lemmas about `processSecrets`. -/

/-- The whole loop touches only processed paths and their artifacts. -/
theorem processSecrets_frame (run : CmdRun) (secrets : List String) :
    ∀ (fs : FS) (calls : Nat) (q : String),
      (∀ p ∈ secrets, q ≠ p ∧ q ≠ p ++ "_backup" ∧ q ≠ p ++ "_new") →
      (processSecrets run fs calls secrets).1 q = fs q := by
  induction secrets with
  | nil => intro fs calls q _; rfl
  | cons p rest ih =>
    intro fs calls q hq
    obtain ⟨h1, h2, h3⟩ := hq p (List.mem_cons_self _ _)
    have hframe := reencryptOne_frame run fs p q h1 h2 h3
    unfold processSecrets
    cases hro : reencryptOne run fs p with
    | mk fs2 rest2 =>
      rw [hro] at hframe
      obtain ⟨n, e?⟩ := rest2
      cases e? with
      | some e => exact hframe
      | none =>
        dsimp only
        rw [ih fs2 (calls + n) q
          (fun p2 hp2 => hq p2 (List.mem_cons_of_mem _ hp2))]
        exact hframe

/-- When every file in the list processes successfully, the loop makes one
external invocation per file and raises nothing. -/
theorem processSecrets_ok (run : CmdRun) (secrets : List String) :
    ∀ (fs : FS) (calls : Nat),
      (∀ p ∈ secrets, strEndsWith p ".yaml" = true) →
      secrets.Nodup →
      (∀ p ∈ secrets, stepOk run p (fs p) = true) →
      (processSecrets run fs calls secrets).2 =
        (calls + secrets.length, none) := by
  induction secrets with
  | nil => intro fs calls _ _ _; simp [processSecrets]
  | cons p rest ih =>
    intro fs calls hy hnd hok
    obtain ⟨hpmem, hnd2⟩ := List.nodup_cons.mp hnd
    have hstep := reencryptOne_ok run fs p (hok p (List.mem_cons_self _ _))
    have hro : reencryptOne run fs p = ((reencryptOne run fs p).1, (1, none)) := by
      rw [← hstep]
    have hok2 : ∀ p2 ∈ rest, stepOk run p2 ((reencryptOne run fs p).1 p2) = true := by
      intro p2 hp2
      rw [reencryptOne_frame run fs p p2
        (fun he => hpmem (he ▸ hp2))
        (yaml_ne_backup p2 p (hy p2 (List.mem_cons_of_mem _ hp2)))
        (yaml_ne_new p2 p (hy p2 (List.mem_cons_of_mem _ hp2)))]
      exact hok p2 (List.mem_cons_of_mem _ hp2)
    unfold processSecrets
    rw [hro]
    dsimp only
    rw [ih (reencryptOne run fs p).1 (calls + 1)
      (fun p2 hp2 => hy p2 (List.mem_cons_of_mem _ hp2)) hnd2 hok2]
    rw [Prod.mk.injEq]
    refine ⟨?_, rfl⟩
    rw [List.length_cons]
    omega

/-- When the external command fails at `F` (the files before it in the list
succeeding), the loop stops with the `ClickException` naming `F` and the
exit code, having invoked the command once per file up to and including
`F`; `F` is restored to its pre-batch state and both its artifacts are
gone. -/
theorem processSecrets_fail (run : CmdRun) (pre : List String) :
    ∀ (fs : FS) (calls : Nat) (F : String) (post : List String) (f : File),
      (∀ p ∈ pre ++ F :: post, strEndsWith p ".yaml" = true) →
      (pre ++ F :: post).Nodup →
      (∀ p ∈ pre, stepOk run p (fs p) = true) →
      fs F = some f →
      ¬(run F f).exitCode = 0 →
      (processSecrets run fs calls (pre ++ F :: post)).2 =
        (calls + pre.length + 1,
          some (.reencryptFailed F (run F f).exitCode)) ∧
      (processSecrets run fs calls (pre ++ F :: post)).1 F = some f ∧
      (processSecrets run fs calls (pre ++ F :: post)).1 (F ++ "_backup") =
        none ∧
      (processSecrets run fs calls (pre ++ F :: post)).1 (F ++ "_new") =
        none := by
  induction pre with
  | nil =>
    intro fs calls F post f hy hnd hok hf hc
    obtain ⟨h2, hP, hB, hN⟩ := reencryptOne_fail run fs F f hf hc
    have hro : reencryptOne run fs F =
        ((reencryptOne run fs F).1,
          (1, some (.reencryptFailed F (run F f).exitCode))) := by
      rw [← h2]
    simp only [List.nil_append]
    unfold processSecrets
    rw [hro]
    dsimp only
    exact ⟨by rw [Prod.mk.injEq]; exact ⟨by simp, rfl⟩, hP, hB, hN⟩
  | cons p pre2 ih =>
    intro fs calls F post f hy hnd hok hf hc
    rw [List.cons_append] at hnd
    obtain ⟨hpmem, hnd2⟩ := List.nodup_cons.mp hnd
    have hFmem : F ∈ pre2 ++ F :: post :=
      List.mem_append_right pre2 (List.mem_cons_self _ _)
    have hstep := reencryptOne_ok run fs p (hok p (List.mem_cons_self _ _))
    have hro : reencryptOne run fs p = ((reencryptOne run fs p).1, (1, none)) := by
      rw [← hstep]
    have hyF : strEndsWith F ".yaml" = true := by
      apply hy
      simp only [List.cons_append]
      exact List.mem_cons_of_mem _ hFmem
    have hfF : (reencryptOne run fs p).1 F = some f := by
      rw [reencryptOne_frame run fs p F
        (fun he => hpmem (he ▸ hFmem))
        (yaml_ne_backup F p hyF) (yaml_ne_new F p hyF)]
      exact hf
    have hok2 : ∀ p2 ∈ pre2, stepOk run p2 ((reencryptOne run fs p).1 p2) = true := by
      intro p2 hp2
      have hp2mem : p2 ∈ pre2 ++ F :: post := List.mem_append_left _ hp2
      have hy2 : strEndsWith p2 ".yaml" = true := by
        apply hy
        simp only [List.cons_append]
        exact List.mem_cons_of_mem _ hp2mem
      rw [reencryptOne_frame run fs p p2
        (fun he => hpmem (he ▸ hp2mem))
        (yaml_ne_backup p2 p hy2) (yaml_ne_new p2 p hy2)]
      exact hok p2 (List.mem_cons_of_mem _ hp2)
    have hy2 : ∀ q ∈ pre2 ++ F :: post, strEndsWith q ".yaml" = true := by
      intro q hq
      apply hy
      simp only [List.cons_append]
      exact List.mem_cons_of_mem _ hq
    obtain ⟨i1, i2, i3, i4⟩ :=
      ih (reencryptOne run fs p).1 (calls + 1) F post f hy2 hnd2 hok2 hfF hc
    simp only [List.cons_append]
    unfold processSecrets
    rw [hro]
    dsimp only
    refine ⟨?_, i2, i3, i4⟩
    rw [i1, Prod.mk.injEq]
    refine ⟨?_, rfl⟩
    rw [List.length_cons]
    omega

/-- C2: over a directory of `*.yaml` files in which the external
command succeeds on every discovered SealedSecret file, the batch
re-encryptor invokes the external command exactly once per SealedSecret
file (`N` times), returns normally — in particular as a no-op when `N` is
zero — and leaves every non-SealedSecret file content unchanged. -/
theorem C2_reencrypt_batch (run : CmdRun) (fs : FS) (dir : List String)
    (hy : ∀ p ∈ dir, strEndsWith p ".yaml" = true)
    (hnd : dir.Nodup)
    (hok : ∀ p ∈ find_sealed_secrets fs dir, stepOk run p (fs p) = true) :
    (reencrypt_secrets run fs dir).2.1 = (find_sealed_secrets fs dir).length ∧
    (reencrypt_secrets run fs dir).2.2 = none ∧
    ∀ q ∈ dir, q ∉ find_sealed_secrets fs dir →
      (reencrypt_secrets run fs dir).1 q = fs q := by
  by_cases hempty : (find_sealed_secrets fs dir).isEmpty = true
  · have h0 : find_sealed_secrets fs dir = [] := List.isEmpty_iff.mp hempty
    unfold reencrypt_secrets
    simp [hempty, h0]
  · rw [Bool.not_eq_true] at hempty
    have hsub : ∀ p ∈ find_sealed_secrets fs dir, p ∈ dir :=
      fun p hp => List.mem_of_mem_filter hp
    have hres := processSecrets_ok run (find_sealed_secrets fs dir) fs 0
      (fun p hp => hy p (hsub p hp)) (hnd.filter _) hok
    unfold reencrypt_secrets
    dsimp only
    rw [hempty]
    simp only [Bool.false_eq_true, if_false]
    refine ⟨?_, ?_, ?_⟩
    · rw [hres]
      simp
    · rw [hres]
    · intro q hqd hqn
      apply processSecrets_frame
      intro p hp
      exact ⟨fun he => hqn (he ▸ hp),
        yaml_ne_backup q p (hy q hqd), yaml_ne_new q p (hy q hqd)⟩

/-- Witness for C2: a directory with one SealedSecret file and one other
YAML file, under an always-succeeding external command. -/
theorem C2_reencrypt_batch_witness :
    (reencrypt_secrets runOk fsTwo ["a.yaml", "b.yaml"]).2.1 =
      (find_sealed_secrets fsTwo ["a.yaml", "b.yaml"]).length ∧
    (reencrypt_secrets runOk fsTwo ["a.yaml", "b.yaml"]).2.2 = none ∧
    ∀ q ∈ ["a.yaml", "b.yaml"],
      q ∉ find_sealed_secrets fsTwo ["a.yaml", "b.yaml"] →
      (reencrypt_secrets runOk fsTwo ["a.yaml", "b.yaml"]).1 q = fsTwo q :=
  C2_reencrypt_batch runOk fsTwo ["a.yaml", "b.yaml"]
    (by decide) (by decide) (by decide)

/-- C1: when the external re-encrypt command exits non-zero while
processing SealedSecret file `F` (the files before `F` in the batch having
succeeded), the batch stops with the `ClickException` naming `F` and the
exit code, having made one invocation per file up to and including `F`;
the on-disk content of `F` equals its pre-batch content and neither the
`F ++ "_backup"` nor the `F ++ "_new"` artifact remains. -/
theorem C1_reencrypt_failure (run : CmdRun) (fs : FS)
    (dir pre post : List String) (F : String) (f : File)
    (hy : ∀ p ∈ dir, strEndsWith p ".yaml" = true)
    (hnd : dir.Nodup)
    (hsplit : find_sealed_secrets fs dir = pre ++ F :: post)
    (hok : ∀ p ∈ pre, stepOk run p (fs p) = true)
    (hf : fs F = some f)
    (hc : ¬(run F f).exitCode = 0) :
    (reencrypt_secrets run fs dir).2.2 =
      some (.reencryptFailed F (run F f).exitCode) ∧
    (reencrypt_secrets run fs dir).2.1 = pre.length + 1 ∧
    (reencrypt_secrets run fs dir).1 F = fs F ∧
    (reencrypt_secrets run fs dir).1 (F ++ "_backup") = none ∧
    (reencrypt_secrets run fs dir).1 (F ++ "_new") = none := by
  have hyS : ∀ p ∈ pre ++ F :: post, strEndsWith p ".yaml" = true :=
    fun p hp => hy p (List.mem_of_mem_filter (hsplit ▸ hp))
  have hndS : (pre ++ F :: post).Nodup := hsplit ▸ hnd.filter _
  have hempty : (find_sealed_secrets fs dir).isEmpty = false := by
    rw [hsplit]
    cases pre with
    | nil => rfl
    | cons a l => rfl
  obtain ⟨r1, r2, r3, r4⟩ :=
    processSecrets_fail run pre fs 0 F post f hyS hndS hok hf hc
  unfold reencrypt_secrets
  dsimp only
  rw [hempty]
  simp only [Bool.false_eq_true, if_false]
  rw [hsplit]
  exact ⟨by rw [r1], by rw [r1]; simp, by rw [r2, hf], r3, r4⟩

/-- Witness for C1: a single SealedSecret file whose re-encryption fails
with exit code 2. -/
theorem C1_reencrypt_failure_witness :
    (reencrypt_secrets runFail fsOne ["c.yaml"]).2.2 =
      some (.reencryptFailed "c.yaml"
        (runFail "c.yaml" sealedFile).exitCode) ∧
    (reencrypt_secrets runFail fsOne ["c.yaml"]).2.1 =
      ([] : List String).length + 1 ∧
    (reencrypt_secrets runFail fsOne ["c.yaml"]).1 "c.yaml" = fsOne "c.yaml" ∧
    (reencrypt_secrets runFail fsOne ["c.yaml"]).1 ("c.yaml" ++ "_backup") =
      none ∧
    (reencrypt_secrets runFail fsOne ["c.yaml"]).1 ("c.yaml" ++ "_new") =
      none :=
  C1_reencrypt_failure runFail fsOne ["c.yaml"] [] [] "c.yaml" sealedFile
    (by decide) (by decide) (by decide) (by decide) rfl (by decide)

end KubesealAuto
